import Mathlib

/-!
Shallow embedding of `pattern_matcher.py`: a batch matcher that reads a
pattern list and a path list, splits both into delimiter-separated fields,
and for each path returns the exact-matching pattern, the best wildcard
candidate, or the sentinel string NO MATCH.

Fields are modelled as lists of characters; a split string is a list of
fields.  All functions mirror the Python source line by line: `pyStrip`
and `pySplit` model `str.strip(c)` and `str.split(c)`, `findLoop` models
the scanning loop of `find_match`, `gbpmLoop` models the loop of
`get_best_potential_match` (including the falsy first-entry test on the
running wildcard counter), and `tieLoop` models the loop of `resolve_tie`.
-/

namespace PatternMatcher

/-- One field of a path or pattern, as the list of its characters. -/
abbrev Field := List Char

/-- The wildcard token `*`. -/
def WILDCARD : Field := ['*']

/-- Model of Python `str.strip(c)`: remove the leading and trailing runs
of the character `c`. -/
def pyStrip (c : Char) (l : List Char) : List Char :=
  ((l.dropWhile (fun x => x == c)).reverse.dropWhile (fun x => x == c)).reverse

/-- Model of Python `str.split(c)` for a single-character separator:
splitting the empty string gives one empty token. -/
def pySplit (c : Char) : List Char → List (List Char)
  | [] => [[]]
  | x :: xs =>
    match pySplit c xs with
    | [] => [[]]
    | y :: ys => if x == c then [] :: y :: ys else (x :: y) :: ys

/-- The field splitter used on every path and pattern line:
`s.strip(delim).split(delim)`. -/
def splitFields (c : Char) (s : String) : List Field :=
  pySplit c (pyStrip c s.data)

/-- `to_string` from the source: join fields with commas. -/
def to_string (fields : List Field) : String :=
  String.mk (List.intercalate [','] fields)

/-- Wildcard-field count of a pattern, `fields.count(WILDCARD)`. -/
def countWild (m : List Field) : Nat := m.count WILDCARD

/-- `is_potential_match` from the source: the number of positionwise equal
fields plus the number of wildcard fields must equal the field count. -/
def is_potential_match (path_fields pattern_fields : List Field) : Bool :=
  let num_wildcards := countWild pattern_fields
  let num_field_matches :=
    (List.zipWith (fun a b => a == b) path_fields pattern_fields).count true
  if num_field_matches + num_wildcards = path_fields.length then true else false

/-- The guard under which `find_match` records a wildcard candidate: equal
field count, at least one wildcard field, and `is_potential_match`. -/
def eligible (path_fields pattern_fields : List Field) : Bool :=
  (path_fields.length == pattern_fields.length) && pattern_fields.contains WILDCARD
    && is_potential_match path_fields pattern_fields

/-- The scanning loop of `find_match`: stop at the first exact match
(returning the candidates accumulated so far), otherwise append every
eligible pattern to the candidate list. -/
def findLoop (path_fields : List Field) (patterns : List String)
    (acc : List (List Field)) : Option (List Field) × List (List Field) :=
  match patterns with
  | [] => (none, acc)
  | p :: rest =>
    let pattern_fields := splitFields ',' p
    if path_fields == pattern_fields then (some pattern_fields, acc)
    else if eligible path_fields pattern_fields then
      findLoop path_fields rest (acc ++ [pattern_fields])
    else findLoop path_fields rest acc

/-- Sum of the zero-based indices of the wildcard fields of a pattern. -/
def indexSum (pattern : List Field) : Nat :=
  ((pattern.enum.filter (fun iv => iv.2 == WILDCARD)).map (fun iv => iv.1)).sum

/-- The loop of `resolve_tie`: keep the current winner unless a strictly
higher index-sum appears (the first entry is installed unconditionally). -/
def tieLoop (ps : List (List Field)) (winner : Option (List Field))
    (highest : Option Nat) : Option (List Field) :=
  match ps with
  | [] => winner
  | p :: rest =>
    let index_sum := indexSum p
    match highest with
    | none => tieLoop rest (some p) (some index_sum)
    | some h =>
      if index_sum > h then tieLoop rest (some p) (some index_sum)
      else tieLoop rest winner (some h)

/-- `resolve_tie` from the source. -/
def resolve_tie (pattern_fields : List (List Field)) : List Field :=
  (tieLoop pattern_fields none none).getD []

/-- Python truthiness test `not wildcard_counter` on an optional counter:
true for `None` and for `0`. -/
def falsyOpt (o : Option Nat) : Bool :=
  match o with
  | none => true
  | some k => k == 0

/-- The loop of `get_best_potential_match`: track the running minimum
wildcard count and the list of matches achieving it. -/
def gbpmLoop (ms : List (List Field)) (fewest_wildcards : List (List Field))
    (wildcard_counter : Option Nat) : List (List Field) :=
  match ms with
  | [] => fewest_wildcards
  | m :: rest =>
    let num_wildcards := countWild m
    if falsyOpt wildcard_counter then
      gbpmLoop rest (fewest_wildcards ++ [m]) (some num_wildcards)
    else
      let wc := wildcard_counter.getD 0
      if num_wildcards < wc then gbpmLoop rest [m] (some num_wildcards)
      else if num_wildcards = wc then
        gbpmLoop rest (fewest_wildcards ++ [m]) wildcard_counter
      else gbpmLoop rest fewest_wildcards wildcard_counter

/-- `get_best_potential_match` from the source. -/
def get_best_potential_match (potential_matches : List (List Field)) : List Field :=
  let fewest_wildcards := gbpmLoop potential_matches [] none
  if fewest_wildcards.length = 1 then fewest_wildcards.headD []
  else resolve_tie fewest_wildcards

/-- The return part of `find_match`: a truthy exact match wins, then a
nonempty candidate list (a singleton directly, otherwise through
`get_best_potential_match`), otherwise the sentinel. -/
def finishMatch (exact_match : Option (List Field))
    (potential_matches : List (List Field)) : String :=
  match exact_match with
  | some (f :: fs) => to_string (f :: fs)
  | _ =>
    if potential_matches.isEmpty then "NO MATCH"
    else if potential_matches.length = 1 then to_string (potential_matches.headD [])
    else to_string (get_best_potential_match potential_matches)

/-- `find_match` from the source. -/
def find_match (path : String) (patterns : List String) : String :=
  let path_fields := splitFields '/' path
  finishMatch (findLoop path_fields patterns []).1 (findLoop path_fields patterns []).2

/-- Model of Python `int()` on the count headers of the input format,
which the contract requires to be non-negative decimal integers: a
nonempty all-digit string parses to its value, anything else is the
fatal parse failure. -/
def parseNat (s : String) : Option Nat :=
  match s.data with
  | [] => none
  | c :: cs =>
    if (c :: cs).all Char.isDigit then
      some ((c :: cs).foldl (fun n ch => n * 10 + (ch.toNat - '0'.toNat)) 0)
    else none

/-- `main` from the source, over the list of stdin lines: parse the
pattern count, take that many pattern lines, parse the path count, take
that many path lines, and emit one `find_match` result per path.  A
missing or unparsable count line is the fatal case (`none`). -/
def main (lines : List String) : Option (List String) :=
  match lines with
  | [] => none
  | l0 :: rest =>
    match parseNat l0 with
    | none => none
    | some pattern_size =>
      let patterns := rest.take pattern_size
      match rest.drop pattern_size with
      | [] => none
      | l1 :: rest3 =>
        match parseNat l1 with
        | none => none
        | some path_size =>
          some ((rest3.take path_size).map (fun path => find_match path patterns))

/-! ### Basic facts about the field splitter -/

theorem pySplit_ne_nil (c : Char) (l : List Char) : pySplit c l ≠ [] := by
  cases l with
  | nil => simp [pySplit]
  | cons x xs =>
    simp only [pySplit]
    split
    · simp
    · split <;> simp

theorem splitFields_ne_nil (c : Char) (s : String) : splitFields c s ≠ [] :=
  pySplit_ne_nil c (pyStrip c s.data)

theorem dropWhile_replicate_append (c : Char) (n : Nat) (l : List Char) :
    List.dropWhile (fun x => x == c) (List.replicate n c ++ l) =
      List.dropWhile (fun x => x == c) l := by
  induction n with
  | zero => simp
  | succ k ih => simp [List.replicate_succ, List.dropWhile_cons, ih]

theorem pyStrip_pad (c : Char) (n m : Nat) (l : List Char) :
    pyStrip c (List.replicate n c ++ l ++ List.replicate m c) = pyStrip c l := by
  unfold pyStrip
  rw [List.append_assoc, dropWhile_replicate_append, List.dropWhile_append]
  by_cases h : (List.dropWhile (fun x => x == c) l).isEmpty = true
  · rw [if_pos h]
    have h2 : List.dropWhile (fun x => x == c) (List.replicate m c) = [] := by
      have h4 := dropWhile_replicate_append c m ([] : List Char)
      rw [List.append_nil] at h4
      exact h4
    have h3 : List.dropWhile (fun x => x == c) l = [] := by
      simpa [List.isEmpty_iff] using h
    rw [h2, h3]
  · rw [if_neg h, List.reverse_append, List.reverse_replicate,
      dropWhile_replicate_append]

/-- Claim C7: the field splitter strips exactly the leading and trailing
runs of the delimiter before splitting, so surrounding any string with
extra delimiter characters does not change the resulting fields, and a
string that is empty after stripping yields the single empty field. -/
theorem claim_C7 (c : Char) (s : String) (n m : Nat) :
    splitFields c (String.mk (List.replicate n c ++ s.data ++ List.replicate m c)) =
        splitFields c s
      ∧ (pyStrip c s.data = [] → splitFields c s = [[]]) := by
  constructor
  · show pySplit c (pyStrip c (List.replicate n c ++ s.data ++ List.replicate m c)) = _
    rw [pyStrip_pad]
    rfl
  · intro h
    show pySplit c (pyStrip c s.data) = [[]]
    rw [h]
    rfl

/-- Witness for C7 at the spec examples: `/a/b/c/` splits like `a/b/c`,
`,a,b,c,` splits like `a,b,c`, and a pure-delimiter string gives one
empty field. -/
theorem claim_C7_w :
    splitFields '/' "/a/b/c/" = splitFields '/' "a/b/c"
      ∧ splitFields ',' ",a,b,c," = splitFields ',' "a,b,c"
      ∧ splitFields ',' "," = [[]] := by
  refine ⟨?_, ?_, ?_⟩
  · have h := (claim_C7 '/' "a/b/c" 1 1).1
    have e : String.mk (List.replicate 1 '/' ++ "a/b/c".data ++ List.replicate 1 '/') =
        "/a/b/c/" := by decide
    rw [e] at h
    exact h
  · have h := (claim_C7 ',' "a,b,c" 1 1).1
    have e : String.mk (List.replicate 1 ',' ++ "a,b,c".data ++ List.replicate 1 ',') =
        ",a,b,c," := by decide
    rw [e] at h
    exact h
  · exact (claim_C7 ',' "," 0 0).2 (by decide)

/-! ### Facts about the scanning loop of find_match -/

theorem findLoop_exact (pf : List Field) (ps : List String) (acc : List (List Field))
    (h : ∃ q ∈ ps, splitFields ',' q = pf) : (findLoop pf ps acc).1 = some pf := by
  induction ps generalizing acc with
  | nil => simp at h
  | cons p rest ih =>
    obtain ⟨q, hq, hqe⟩ := h
    simp only [findLoop]
    by_cases hc : pf = splitFields ',' p
    · simp [← hc]
    · have hcb : (pf == splitFields ',' p) = false := by simp [hc]
      rw [hcb]
      simp only [Bool.false_eq_true, if_false]
      rcases List.mem_cons.mp hq with rfl | hq2
      · exact absurd hqe.symm hc
      · split <;> exact ih _ ⟨q, hq2, hqe⟩

theorem findLoop_fst_eq (pf : List Field) (ps : List String) (acc : List (List Field))
    (e : List Field) (h : (findLoop pf ps acc).1 = some e) : e = pf := by
  induction ps generalizing acc with
  | nil => simp [findLoop] at h
  | cons p rest ih =>
    simp only [findLoop] at h
    by_cases hc : pf = splitFields ',' p
    · rw [← hc] at h
      simp at h
      exact h.symm
    · have hcb : (pf == splitFields ',' p) = false := by simp [hc]
      rw [hcb] at h
      simp only [Bool.false_eq_true, if_false] at h
      split at h <;> exact ih _ h

theorem findLoop_fst_some_src (pf : List Field) (ps : List String)
    (acc : List (List Field)) (e : List Field) (h : (findLoop pf ps acc).1 = some e) :
    ∃ q ∈ ps, splitFields ',' q = e := by
  induction ps generalizing acc with
  | nil => simp [findLoop] at h
  | cons p rest ih =>
    simp only [findLoop] at h
    by_cases hc : pf = splitFields ',' p
    · rw [← hc] at h
      simp at h
      exact ⟨p, by simp, hc ▸ h⟩
    · have hcb : (pf == splitFields ',' p) = false := by simp [hc]
      rw [hcb] at h
      simp only [Bool.false_eq_true, if_false] at h
      split at h <;>
        · obtain ⟨q, hq, hqe⟩ := ih _ h
          exact ⟨q, by simp [hq], hqe⟩

theorem findLoop_fst_none (pf : List Field) (ps : List String) (acc : List (List Field))
    (h : (findLoop pf ps acc).1 = none) : ∀ q ∈ ps, splitFields ',' q ≠ pf := by
  intro q hq hqe
  have h2 := findLoop_exact pf ps acc ⟨q, hq, hqe⟩
  rw [h] at h2
  exact Option.noConfusion h2

theorem findLoop_none_result (pf : List Field) (ps : List String)
    (acc : List (List Field)) (h : ∀ q ∈ ps, splitFields ',' q ≠ pf) :
    findLoop pf ps acc =
      (none, acc ++ (ps.map (fun q => splitFields ',' q)).filter
        (fun m => eligible pf m)) := by
  induction ps generalizing acc with
  | nil => simp [findLoop]
  | cons p rest ih =>
    have hne : splitFields ',' p ≠ pf := h p (by simp)
    have hcb : (pf == splitFields ',' p) = false := by
      simp
      exact fun he => hne he.symm
    simp only [findLoop, hcb, Bool.false_eq_true, if_false]
    have hrest : ∀ q ∈ rest, splitFields ',' q ≠ pf := fun q hq => h q (by simp [hq])
    by_cases hel : eligible pf (splitFields ',' p) = true
    · rw [if_pos hel, ih _ hrest]
      simp [hel]
    · rw [if_neg hel, ih _ hrest]
      simp [hel]

theorem findLoop_snd_from (pf : List Field) (ps : List String)
    (acc : List (List Field)) :
    ∀ m ∈ (findLoop pf ps acc).2,
      m ∈ acc ∨ ∃ q ∈ ps, splitFields ',' q = m ∧ eligible pf m = true := by
  induction ps generalizing acc with
  | nil => intro m hm; exact Or.inl (by simpa [findLoop] using hm)
  | cons p rest ih =>
    intro m hm
    simp only [findLoop] at hm
    by_cases hc : pf = splitFields ',' p
    · rw [← hc] at hm
      simp at hm
      exact Or.inl hm
    · have hcb : (pf == splitFields ',' p) = false := by simp [hc]
      rw [hcb] at hm
      simp only [Bool.false_eq_true, if_false] at hm
      by_cases hel : eligible pf (splitFields ',' p) = true
      · rw [if_pos hel] at hm
        rcases ih _ m hm with hacc | ⟨q, hq, hqe, hqel⟩
        · rcases List.mem_append.mp hacc with h1 | h1
          · exact Or.inl h1
          · refine Or.inr ⟨p, by simp, ?_, ?_⟩
            · simpa using (List.mem_singleton.mp h1).symm
            · have : m = splitFields ',' p := by simpa using List.mem_singleton.mp h1
              rw [this]
              exact hel
        · exact Or.inr ⟨q, by simp [hq], hqe, hqel⟩
      · rw [if_neg hel] at hm
        rcases ih _ m hm with hacc | ⟨q, hq, hqe, hqel⟩
        · exact Or.inl hacc
        · exact Or.inr ⟨q, by simp [hq], hqe, hqel⟩

theorem eligible_spec (pf m : List Field) (h : eligible pf m = true) :
    pf.length = m.length ∧ WILDCARD ∈ m ∧ is_potential_match pf m = true := by
  simp only [eligible, Bool.and_eq_true, beq_iff_eq] at h
  refine ⟨h.1.1, ?_, h.2⟩
  have := h.1.2
  simpa [List.contains, List.elem_iff] using this

theorem find_match_exact (path : String) (patterns : List String)
    (h : ∃ q ∈ patterns, splitFields ',' q = splitFields '/' path) :
    find_match path patterns = to_string (splitFields '/' path) := by
  have h1 : (findLoop (splitFields '/' path) patterns []).1 =
      some (splitFields '/' path) := findLoop_exact _ _ _ h
  have hne := splitFields_ne_nil '/' path
  rcases hp : splitFields '/' path with _ | ⟨f, fs⟩
  · exact absurd hp hne
  · rw [hp] at h1
    simp only [find_match, hp, h1, finishMatch]

/-- Claim C1: if some pattern normalizes to exactly the path fields, then
`find_match` returns those fields joined by commas, no matter what
wildcard candidates appear anywhere in the list. -/
theorem claim_C1 (path : String) (patterns : List String)
    (h : ∃ q ∈ patterns, splitFields ',' q = splitFields '/' path) :
    find_match path patterns = to_string (splitFields '/' path) :=
  find_match_exact path patterns h

/-- Witness for C1: the spec example, where the exact match `a,b,c` wins
over the unrelated pattern `x,y,z`. -/
theorem claim_C1_w : find_match "a/b/c" ["x,y,z", "a,b,c"] = "a,b,c" := by
  have h := claim_C1 "a/b/c" ["x,y,z", "a,b,c"] ⟨"a,b,c", by simp, by decide⟩
  rw [h]
  decide

theorem findLoop_filter (pf : List Field) (ps : List String) (acc : List (List Field)) :
    findLoop pf ps acc =
      findLoop pf (ps.filter (fun q => (splitFields ',' q).length == pf.length)) acc := by
  induction ps generalizing acc with
  | nil => simp
  | cons p rest ih =>
    rw [List.filter_cons]
    by_cases hl : (splitFields ',' p).length = pf.length
    · have hp : ((splitFields ',' p).length == pf.length) = true := by simp [hl]
      rw [hp]
      simp only [if_true]
      simp only [findLoop]
      split
      · rfl
      · split <;> exact ih _
    · have hp : ((splitFields ',' p).length == pf.length) = false := by simp [hl]
      rw [hp]
      simp only [Bool.false_eq_true, if_false]
      have hc : (pf == splitFields ',' p) = false := by
        simp
        intro he
        exact hl (by rw [← he])
      have hlen2 : (pf.length == (splitFields ',' p).length) = false := by
        simp
        exact fun h2 => hl h2.symm
      have hel : eligible pf (splitFields ',' p) = false := by
        simp [eligible, hlen2]
      simp only [findLoop, hc, hel, Bool.false_eq_true, if_false]
      exact ih _

/-- Claim C5: a pattern whose normalized field count differs from the
path cannot be the exact match, cannot be a collected candidate, and
removing all such patterns from the list leaves the result of
`find_match` unchanged. -/
theorem claim_C5 (path q : String) (patterns : List String)
    (hq : (splitFields ',' q).length ≠ (splitFields '/' path).length) :
    find_match path patterns =
        find_match path (patterns.filter
          (fun r => (splitFields ',' r).length == (splitFields '/' path).length))
      ∧ (findLoop (splitFields '/' path) patterns []).1 ≠ some (splitFields ',' q)
      ∧ splitFields ',' q ∉ (findLoop (splitFields '/' path) patterns []).2 := by
  refine ⟨?_, ?_, ?_⟩
  · simp only [find_match]
    rw [findLoop_filter (splitFields '/' path) patterns []]
  · intro h
    have h2 := findLoop_fst_eq _ _ _ _ h
    exact hq (by rw [h2])
  · intro hmem
    rcases findLoop_snd_from _ _ _ _ hmem with habs | ⟨r, _, hre, hrel⟩
    · simp at habs
    · have h3 := (eligible_spec _ _ hrel).1
      exact hq h3.symm

/-- Witness for C5: pattern `a,*` (two fields) is never collected for
path `a/b/c` (three fields). -/
theorem claim_C5_w :
    splitFields ',' "a,*" ∉ (findLoop (splitFields '/' "a/b/c") ["a,*", "a,*,c"] []).2 :=
  (claim_C5 "a/b/c" "a,*" ["a,*", "a,*,c"] (by decide)).2.2

/-! ### The counting formula of is_potential_match -/

theorem countEqWild_le (a : List Field) :
    ∀ (b : List Field), a.length = b.length → (∀ f ∈ a, f ≠ WILDCARD) →
      (List.zipWith (fun x y => x == y) a b).count true + b.count WILDCARD ≤
        a.length := by
  induction a with
  | nil =>
    intro b hlen _
    cases b with
    | nil => simp
    | cons y ys => simp at hlen
  | cons x xs ih =>
    intro b hlen hw
    cases b with
    | nil => simp at hlen
    | cons y ys =>
      have hx : x ≠ WILDCARD := hw x (by simp)
      have ht := ih ys (by simpa using hlen) (fun f hf => hw f (by simp [hf]))
      simp only [List.zipWith_cons_cons, List.count_cons, List.length_cons,
        beq_iff_eq]
      by_cases hxy : x = y <;> by_cases hyw : y = WILDCARD <;>
        first
          | (exact absurd (hxy.trans hyw) hx)
          | (simp [hxy, hyw, hx]; omega)

theorem ipm_count_iff (a : List Field) :
    ∀ (b : List Field), a.length = b.length → (∀ f ∈ a, f ≠ WILDCARD) →
      ((List.zipWith (fun x y => x == y) a b).count true + b.count WILDCARD =
          a.length
        ↔ List.Forall₂ (fun x y => x = y ∨ y = WILDCARD) a b) := by
  induction a with
  | nil =>
    intro b hlen _
    cases b with
    | nil => simp
    | cons y ys => simp at hlen
  | cons x xs ih =>
    intro b hlen hw
    cases b with
    | nil => simp at hlen
    | cons y ys =>
      have hx : x ≠ WILDCARD := hw x (by simp)
      have hlen2 : xs.length = ys.length := by simpa using hlen
      have hw2 : ∀ f ∈ xs, f ≠ WILDCARD := fun f hf => hw f (by simp [hf])
      have hbound := countEqWild_le xs ys hlen2 hw2
      have hih := ih ys hlen2 hw2
      simp only [List.zipWith_cons_cons, List.count_cons, List.length_cons,
        List.forall₂_cons]
      by_cases hxy : x = y <;> by_cases hyw : y = WILDCARD
      · exact absurd (hxy.trans hyw) hx
      · simp [hxy, hyw, hx]
        constructor
        · intro h
          exact hih.mp (by omega)
        · intro h
          have := hih.mpr h
          omega
      · simp [hxy, hyw, hx]
        constructor
        · intro h
          exact hih.mp (by omega)
        · intro h
          have := hih.mpr h
          omega
      · simp [hxy, hyw, hx]
        omega

/-- Claim C4: under the input contract that no path field is the wildcard
token, the counting test of `is_potential_match` holds exactly when every
position is either an exact field match or a pattern wildcard. -/
theorem claim_C4 (a b : List Field) (hlen : a.length = b.length)
    (hw : ∀ f ∈ a, f ≠ WILDCARD) :
    (is_potential_match a b = true ↔
      List.Forall₂ (fun x y => x = y ∨ y = WILDCARD) a b) := by
  rw [← ipm_count_iff a b hlen hw]
  unfold is_potential_match countWild
  by_cases hc : (List.zipWith (fun x y => x == y) a b).count true +
      b.count WILDCARD = a.length
  · simp [hc]
  · simp [hc]

/-- Witness for C4 at path fields `a b c` against pattern fields `a * c`. -/
theorem claim_C4_w :
    is_potential_match [['a'], ['b'], ['c']] [['a'], ['*'], ['c']] = true ↔
      List.Forall₂ (fun x y => x = y ∨ y = WILDCARD)
        [['a'], ['b'], ['c']] [['a'], ['*'], ['c']] :=
  claim_C4 _ _ (by decide) (by decide)

/-! ### The best-match resolver -/

/-- Running minimum of wildcard counts, seeded with `wc`. -/
def minFrom (wc : Nat) (ms : List (List Field)) : Nat :=
  ms.foldl (fun a m => min a (countWild m)) wc

/-- Minimum wildcard count over a candidate list (0 for the empty list). -/
def minCount : List (List Field) → Nat
  | [] => 0
  | m :: ms => minFrom (countWild m) ms

theorem minFrom_cons (wc : Nat) (m : List Field) (ms : List (List Field)) :
    minFrom wc (m :: ms) = minFrom (min wc (countWild m)) ms := rfl

theorem minFrom_le_init (ms : List (List Field)) :
    ∀ wc, minFrom wc ms ≤ wc := by
  induction ms with
  | nil => intro wc; exact Nat.le_refl wc
  | cons m rest ih =>
    intro wc
    calc minFrom wc (m :: rest) = minFrom (min wc (countWild m)) rest :=
          minFrom_cons wc m rest
      _ ≤ min wc (countWild m) := ih _
      _ ≤ wc := Nat.min_le_left _ _

theorem minFrom_le_mem (ms : List (List Field)) :
    ∀ wc m, m ∈ ms → minFrom wc ms ≤ countWild m := by
  induction ms with
  | nil => intro wc m hm; simp at hm
  | cons a rest ih =>
    intro wc m hm
    rcases List.mem_cons.mp hm with rfl | hm2
    · calc minFrom wc (m :: rest) = minFrom (min wc (countWild m)) rest :=
            minFrom_cons wc m rest
        _ ≤ min wc (countWild m) := minFrom_le_init _ _
        _ ≤ countWild m := Nat.min_le_right _ _
    · exact ih _ m hm2

theorem minFrom_attained (ms : List (List Field)) :
    ∀ wc, minFrom wc ms = wc ∨ ∃ m ∈ ms, minFrom wc ms = countWild m := by
  induction ms with
  | nil => intro wc; exact Or.inl rfl
  | cons a rest ih =>
    intro wc
    rcases ih (min wc (countWild a)) with h | ⟨m, hm, he⟩
    · rcases Nat.le_total wc (countWild a) with hle | hle
      · left
        rw [minFrom_cons, h, Nat.min_eq_left hle]
      · right
        exact ⟨a, by simp, by rw [minFrom_cons, h, Nat.min_eq_right hle]⟩
    · right
      exact ⟨m, by simp [hm], by rw [minFrom_cons]; exact he⟩

theorem minCount_le (pms : List (List Field)) (m : List Field) (hm : m ∈ pms) :
    minCount pms ≤ countWild m := by
  cases pms with
  | nil => simp at hm
  | cons a rest =>
    rcases List.mem_cons.mp hm with rfl | hm2
    · exact minFrom_le_init rest (countWild m)
    · exact minFrom_le_mem rest (countWild a) m hm2

theorem minCount_attained (pms : List (List Field)) (hne : pms ≠ []) :
    ∃ m ∈ pms, countWild m = minCount pms := by
  cases pms with
  | nil => exact absurd rfl hne
  | cons a rest =>
    rcases minFrom_attained rest (countWild a) with h | ⟨m, hm, he⟩
    · exact ⟨a, by simp, h.symm⟩
    · exact ⟨m, by simp [hm], he.symm⟩

theorem gbpmLoop_char (ms : List (List Field)) :
    ∀ (fewest : List (List Field)) (wc : Nat), wc ≠ 0 →
      (∀ m ∈ ms, countWild m ≠ 0) →
      gbpmLoop ms fewest (some wc) =
        (if minFrom wc ms = wc then fewest else []) ++
          ms.filter (fun m => countWild m == minFrom wc ms) := by
  induction ms with
  | nil =>
    intro fewest wc _ _
    simp [gbpmLoop, minFrom]
  | cons m rest ih =>
    intro fewest wc hwc hms
    have hm0 : countWild m ≠ 0 := hms m (by simp)
    have hrest : ∀ x ∈ rest, countWild x ≠ 0 := fun x hx => hms x (by simp [hx])
    have hfalsy : falsyOpt (some wc) = false := by simp [falsyOpt, hwc]
    simp only [gbpmLoop, hfalsy, Bool.false_eq_true, if_false, Option.getD_some]
    rcases Nat.lt_trichotomy (countWild m) wc with hlt | heq | hgt
    · rw [if_pos hlt, ih [m] (countWild m) hm0 hrest]
      have hmc : minFrom wc (m :: rest) = minFrom (countWild m) rest := by
        rw [minFrom_cons, Nat.min_eq_right (Nat.le_of_lt hlt)]
      rw [hmc]
      have hni : minFrom (countWild m) rest ≠ wc := by
        have := minFrom_le_init rest (countWild m)
        omega
      rw [if_neg hni, List.filter_cons]
      by_cases hcm : countWild m = minFrom (countWild m) rest
      · simp [← hcm]
      · have h1 : minFrom (countWild m) rest ≠ countWild m := fun h => hcm h.symm
        simp [hcm, h1]
    · rw [if_neg (by omega), if_pos heq, ih (fewest ++ [m]) wc hwc hrest]
      have hmc : minFrom wc (m :: rest) = minFrom wc rest := by
        rw [minFrom_cons, heq, Nat.min_self]
      rw [hmc, List.filter_cons]
      by_cases hM : minFrom wc rest = wc
      · have hcm : (countWild m == minFrom wc rest) = true := by simp [heq, hM]
        simp [hM, hcm, heq]
      · have hcm : (countWild m == minFrom wc rest) = false := by
          simp [heq]
          exact fun h => hM h.symm
        simp [hM, hcm]
    · rw [if_neg (by omega), if_neg (by omega), ih fewest wc hwc hrest]
      have hmc : minFrom wc (m :: rest) = minFrom wc rest := by
        rw [minFrom_cons, Nat.min_eq_left (Nat.le_of_lt hgt)]
      rw [hmc, List.filter_cons]
      have hcm : (countWild m == minFrom wc rest) = false := by
        have := minFrom_le_init rest wc
        simp
        omega
      simp [hcm]

theorem gbpm_fewest (pms : List (List Field)) (hne : pms ≠ [])
    (h0 : ∀ m ∈ pms, countWild m ≠ 0) :
    gbpmLoop pms [] none = pms.filter (fun m => countWild m == minCount pms) := by
  cases pms with
  | nil => exact absurd rfl hne
  | cons m rest =>
    have hm0 : countWild m ≠ 0 := h0 m (by simp)
    have hrest : ∀ x ∈ rest, countWild x ≠ 0 := fun x hx => h0 x (by simp [hx])
    have hstep : gbpmLoop (m :: rest) [] none =
        gbpmLoop rest [m] (some (countWild m)) := by
      simp [gbpmLoop, falsyOpt]
    rw [hstep, gbpmLoop_char rest [m] (countWild m) hm0 hrest]
    have hmc : minCount (m :: rest) = minFrom (countWild m) rest := rfl
    rw [hmc, List.filter_cons]
    by_cases hcm : countWild m = minFrom (countWild m) rest
    · simp [← hcm]
    · have h1 : minFrom (countWild m) rest ≠ countWild m := fun h => hcm h.symm
      simp [hcm, h1]

/-! ### The tie-break loop -/

theorem tie_keep (ps : List (List Field)) :
    ∀ w, (∀ m ∈ ps, indexSum m ≤ indexSum w) →
      tieLoop ps (some w) (some (indexSum w)) = some w := by
  induction ps with
  | nil => intro w _; rfl
  | cons p rest ih =>
    intro w h
    have hp : indexSum p ≤ indexSum w := h p (by simp)
    simp only [tieLoop]
    rw [if_neg (by omega)]
    exact ih w (fun m hm => h m (by simp [hm]))

theorem tie_reach (l1 : List (List Field)) :
    ∀ (m0 : List Field) (l2 : List (List Field)) (w : List Field) (hs : Nat),
      hs < indexSum m0 → (∀ m ∈ l1, indexSum m < indexSum m0) →
      (∀ m ∈ l2, indexSum m ≤ indexSum m0) →
      tieLoop (l1 ++ m0 :: l2) (some w) (some hs) = some m0 := by
  induction l1 with
  | nil =>
    intro m0 l2 w hs h0 _ h2
    simp only [List.nil_append, tieLoop]
    rw [if_pos h0]
    exact tie_keep l2 m0 h2
  | cons p l1x ih =>
    intro m0 l2 w hs h0 h1 h2
    have hp : indexSum p < indexSum m0 := h1 p (by simp)
    simp only [List.cons_append, tieLoop]
    by_cases hgt : indexSum p > hs
    · rw [if_pos hgt]
      exact ih m0 l2 p (indexSum p) hp (fun m hm => h1 m (by simp [hm])) h2
    · rw [if_neg hgt]
      exact ih m0 l2 w hs h0 (fun m hm => h1 m (by simp [hm])) h2

theorem resolve_tie_split (l1 l2 : List (List Field)) (m0 : List Field)
    (h1 : ∀ m ∈ l1, indexSum m < indexSum m0)
    (h2 : ∀ m ∈ l2, indexSum m ≤ indexSum m0) :
    resolve_tie (l1 ++ m0 :: l2) = m0 := by
  cases l1 with
  | nil =>
    show (tieLoop (m0 :: l2) none none).getD [] = m0
    simp only [tieLoop]
    rw [tie_keep l2 m0 h2]
    rfl
  | cons p l1x =>
    show (tieLoop ((p :: l1x) ++ m0 :: l2) none none).getD [] = m0
    simp only [List.cons_append, List.append_eq, tieLoop]
    rw [tie_reach l1x m0 l2 p (indexSum p) (h1 p (by simp))
      (fun m hm => h1 m (by simp [hm])) h2]
    rfl

theorem tieLoop_some_mem (ps : List (List Field)) :
    ∀ w hs, ∃ w2, tieLoop ps (some w) (some hs) = some w2 ∧ (w2 = w ∨ w2 ∈ ps) := by
  induction ps with
  | nil => intro w hs; exact ⟨w, rfl, Or.inl rfl⟩
  | cons p rest ih =>
    intro w hs
    simp only [tieLoop]
    by_cases hgt : indexSum p > hs
    · rw [if_pos hgt]
      obtain ⟨w2, he, hw⟩ := ih p (indexSum p)
      refine ⟨w2, he, Or.inr ?_⟩
      rcases hw with rfl | h
      · simp
      · simp [h]
    · rw [if_neg hgt]
      obtain ⟨w2, he, hw⟩ := ih w hs
      refine ⟨w2, he, ?_⟩
      rcases hw with rfl | h
      · exact Or.inl rfl
      · exact Or.inr (by simp [h])

theorem resolve_tie_mem (ps : List (List Field)) (hne : ps ≠ []) :
    resolve_tie ps ∈ ps := by
  cases ps with
  | nil => exact absurd rfl hne
  | cons p rest =>
    show (tieLoop (p :: rest) none none).getD [] ∈ _
    simp only [tieLoop]
    obtain ⟨w2, he, hw⟩ := tieLoop_some_mem rest p (indexSum p)
    rw [he]
    rcases hw with rfl | h
    · simp
    · simp [h]

theorem tie_all_eq (ps : List (List Field)) (m0 : List Field) (hne : ps ≠ [])
    (hall : ∀ x ∈ ps, x = m0) : resolve_tie ps = m0 := by
  cases ps with
  | nil => exact absurd rfl hne
  | cons p rest =>
    have hp : p = m0 := hall p (by simp)
    show (tieLoop (p :: rest) none none).getD [] = m0
    simp only [tieLoop]
    rw [tie_keep rest p (fun m hm =>
      le_of_eq (by rw [hall m (by simp [hm]), hp]))]
    simp [hp]

theorem mem_first_split (m0 : List Field) (l : List (List Field)) (h : m0 ∈ l) :
    ∃ s t, l = s ++ m0 :: t ∧ m0 ∉ s := by
  induction l with
  | nil => simp at h
  | cons a rest ih =>
    by_cases ha : a = m0
    · exact ⟨[], rest, by simp [ha], by simp⟩
    · have h2 : m0 ∈ rest := by
        rcases List.mem_cons.mp h with h3 | h3
        · exact absurd h3.symm ha
        · exact h3
      obtain ⟨s, t, he, hn⟩ := ih h2
      refine ⟨a :: s, t, by simp [he], ?_⟩
      intro hmem
      rcases List.mem_cons.mp hmem with h4 | h4
      · exact ha h4.symm
      · exact hn h4

theorem tie_unique_max (ps : List (List Field)) (m0 : List Field) (hm0 : m0 ∈ ps)
    (hmax : ∀ m ∈ ps, m ≠ m0 → indexSum m < indexSum m0) : resolve_tie ps = m0 := by
  obtain ⟨s, t, rfl, hns⟩ := mem_first_split m0 ps hm0
  apply resolve_tie_split
  · intro m hm
    exact hmax m (by simp [hm]) (fun he => hns (he ▸ hm))
  · intro m hm
    by_cases he : m = m0
    · simp [he]
    · exact le_of_lt (hmax m (by simp [hm]) he)

theorem gbpm_mem (pms : List (List Field)) (hne : pms ≠ [])
    (h0 : ∀ m ∈ pms, countWild m ≠ 0) : get_best_potential_match pms ∈ pms := by
  unfold get_best_potential_match
  rw [gbpm_fewest pms hne h0]
  have hFne : pms.filter (fun m => countWild m == minCount pms) ≠ [] := by
    obtain ⟨m, hm, he⟩ := minCount_attained pms hne
    have hmem : m ∈ pms.filter (fun m => countWild m == minCount pms) :=
      List.mem_filter.mpr ⟨hm, by simp [he]⟩
    intro h
    rw [h] at hmem
    simp at hmem
  by_cases hlen : (pms.filter (fun m => countWild m == minCount pms)).length = 1
  · rw [if_pos hlen]
    rcases hE : pms.filter (fun m => countWild m == minCount pms) with _ | ⟨f, fs⟩
    · exact absurd hE hFne
    · simp only [List.headD_cons]
      have hmem : f ∈ pms.filter (fun m => countWild m == minCount pms) := by
        rw [hE]
        simp
      exact (List.mem_filter.mp hmem).1
  · rw [if_neg hlen]
    have hmem := resolve_tie_mem _ hFne
    exact (List.mem_filter.mp hmem).1

/-- Claim C10: every collected candidate contains a wildcard field, and on
any nonempty all-wildcard candidate list the resolver returns one of its
elements. -/
theorem claim_C10 (path : String) (patterns : List String) (pms : List (List Field))
    (hpms : pms = (findLoop (splitFields '/' path) patterns []).2) :
    (∀ m ∈ pms, WILDCARD ∈ m) ∧ (pms ≠ [] → get_best_potential_match pms ∈ pms) := by
  have hwild : ∀ m ∈ pms, WILDCARD ∈ m := by
    intro m hm
    rw [hpms] at hm
    rcases findLoop_snd_from _ _ _ m hm with habs | ⟨q, _, _, hqel⟩
    · simp at habs
    · exact (eligible_spec _ _ hqel).2.1
  refine ⟨hwild, fun hne => gbpm_mem pms hne ?_⟩
  intro m hm
  have hp : 0 < m.count WILDCARD := List.count_pos_iff.mpr (hwild m hm)
  unfold countWild
  omega

/-- Witness for C10 with two wildcard candidates for path `a/b/c`. -/
theorem claim_C10_w :
    get_best_potential_match
        ((findLoop (splitFields '/' "a/b/c") ["*,b,c", "a,*,c"] []).2) ∈
      (findLoop (splitFields '/' "a/b/c") ["*,b,c", "a,*,c"] []).2 :=
  (claim_C10 "a/b/c" ["*,b,c", "a,*,c"] _ rfl).2 (by decide)

/-- Claim C2: on a nonempty list of wildcard candidates with a unique
minimum wildcard count, the resolver returns the unique minimizer. -/
theorem claim_C2 (pms : List (List Field)) (m0 : List Field)
    (hall : ∀ m ∈ pms, WILDCARD ∈ m) (hm0 : m0 ∈ pms)
    (hmin : ∀ m ∈ pms, m ≠ m0 → countWild m0 < countWild m) :
    get_best_potential_match pms = m0 := by
  have hne : pms ≠ [] := fun h => by
    rw [h] at hm0
    simp at hm0
  have h0 : ∀ m ∈ pms, countWild m ≠ 0 := by
    intro m hm
    have := List.count_pos_iff.mpr (hall m hm)
    unfold countWild
    omega
  have hmc : countWild m0 = minCount pms := by
    obtain ⟨m1, hm1, he⟩ := minCount_attained pms hne
    by_cases hem : m1 = m0
    · exact hem ▸ he
    · have h1 := hmin m1 hm1 hem
      have h2 := minCount_le pms m0 hm0
      omega
  have hallF : ∀ x ∈ pms.filter (fun m => countWild m == minCount pms), x = m0 := by
    intro x hx
    obtain ⟨hxp, hxc⟩ := List.mem_filter.mp hx
    by_contra hxn
    have h1 := hmin x hxp hxn
    have h2 : countWild x = minCount pms := by simpa using hxc
    omega
  have hm0F : m0 ∈ pms.filter (fun m => countWild m == minCount pms) :=
    List.mem_filter.mpr ⟨hm0, by simp [hmc]⟩
  unfold get_best_potential_match
  rw [gbpm_fewest pms hne h0]
  by_cases hlen : (pms.filter (fun m => countWild m == minCount pms)).length = 1
  · rw [if_pos hlen]
    rcases hE : pms.filter (fun m => countWild m == minCount pms) with _ | ⟨f, fs⟩
    · rw [hE] at hm0F
      simp at hm0F
    · simp only [List.headD_cons]
      apply hallF
      rw [hE]
      simp
  · rw [if_neg hlen]
    apply tie_all_eq
    · intro h
      rw [h] at hm0F
      simp at hm0F
    · exact hallF

/-- Witness for C2 at the spec example: `a,*,c` (one wildcard) beats
`*,*,c` (two wildcards) for path `a/b/c`. -/
theorem claim_C2_w :
    get_best_potential_match
        [[WILDCARD, WILDCARD, ['c']], [['a'], WILDCARD, ['c']]] =
      [['a'], WILDCARD, ['c']] :=
  claim_C2 _ _ (by decide) (by decide) (by decide)

/-- Claim C3: when at least two candidates share the minimal wildcard
count, the resolver returns the retained candidate with the strictly
highest wildcard index-sum; the second and third conjuncts show on a
concrete pair that the comparison is by index-sum and not by the position
of the leftmost wildcard. -/
theorem claim_C3 (pms : List (List Field)) (m0 : List Field)
    (h0 : ∀ m ∈ pms, countWild m ≠ 0)
    (htwo : 2 ≤ (pms.filter (fun m => countWild m == minCount pms)).length)
    (hm0 : m0 ∈ pms.filter (fun m => countWild m == minCount pms))
    (hmax : ∀ m ∈ pms.filter (fun m => countWild m == minCount pms),
      m ≠ m0 → indexSum m < indexSum m0) :
    get_best_potential_match pms = m0
      ∧ resolve_tie [[WILDCARD, ['b'], ['c'], ['d'], WILDCARD],
          [['a'], WILDCARD, WILDCARD, ['d'], ['e']]] =
            [WILDCARD, ['b'], ['c'], ['d'], WILDCARD]
      ∧ List.indexOf WILDCARD [WILDCARD, ['b'], ['c'], ['d'], WILDCARD] <
          List.indexOf WILDCARD [['a'], WILDCARD, WILDCARD, ['d'], ['e']] := by
  refine ⟨?_, by decide, by decide⟩
  have hne : pms ≠ [] := by
    intro h
    rw [h] at hm0
    simp at hm0
  unfold get_best_potential_match
  rw [gbpm_fewest pms hne h0]
  rw [if_neg (by omega)]
  exact tie_unique_max _ m0 hm0 hmax

/-- Witness for C3 at the spec example: `a,*,c` (index-sum 1) beats
`*,b,c` (index-sum 0) for path `a/b/c`. -/
theorem claim_C3_w :
    get_best_potential_match [[WILDCARD, ['b'], ['c']], [['a'], WILDCARD, ['c']]] =
      [['a'], WILDCARD, ['c']] :=
  (claim_C3 _ _ (by decide) (by decide) (by decide) (by decide)).1

/-- Claim C9: with equal or lower index-sums elsewhere, `resolve_tie`
returns the earliest candidate achieving the maximal index-sum, because
only a strictly greater sum replaces the current winner. -/
theorem claim_C9 (l1 l2 : List (List Field)) (m0 : List Field)
    (h1 : ∀ m ∈ l1, indexSum m < indexSum m0)
    (h2 : ∀ m ∈ l2, indexSum m ≤ indexSum m0) :
    resolve_tie (l1 ++ m0 :: l2) = m0 :=
  resolve_tie_split l1 l2 m0 h1 h2

/-- Witness for C9: two candidates with equal index-sum 1; the first one
in list order wins. -/
theorem claim_C9_w :
    resolve_tie [[['a'], WILDCARD, ['c']], [['x'], WILDCARD, ['c']]] =
      [['a'], WILDCARD, ['c']] :=
  claim_C9 [] [[['x'], WILDCARD, ['c']]] [['a'], WILDCARD, ['c']]
    (by decide) (by decide)

/-! ### The NO MATCH sentinel -/

theorem finishMatch_none_ne (cands : List (List Field)) (hne : cands ≠ [])
    (hsrc : ∀ x ∈ cands, to_string x ≠ "NO MATCH")
    (h0 : ∀ x ∈ cands, WILDCARD ∈ x) :
    finishMatch none cands ≠ "NO MATCH" := by
  have hemp : cands.isEmpty = false := by
    simp [List.isEmpty_iff, hne]
  simp only [finishMatch, hemp, Bool.false_eq_true, if_false]
  by_cases hlen : cands.length = 1
  · rw [if_pos hlen]
    rcases cands with _ | ⟨f, fs⟩
    · exact absurd rfl hne
    · simp only [List.headD_cons]
      exact hsrc f (by simp)
  · rw [if_neg hlen]
    apply hsrc
    apply gbpm_mem cands hne
    intro m hm
    have hp : 0 < m.count WILDCARD := List.count_pos_iff.mpr (h0 m hm)
    unfold countWild
    omega

/-- Counterexample for C6 as frozen: for the path `NO MATCH` and the
single pattern `NO MATCH`, `find_match` returns the string `NO MATCH`
even though that pattern is an exact match, so the claimed equivalence
fails at this input. -/
theorem claim_C6_cex :
    ¬ ((find_match "NO MATCH" ["NO MATCH"] = "NO MATCH") ↔
      ((∀ q ∈ ["NO MATCH"], splitFields ',' q ≠ splitFields '/' "NO MATCH")
        ∧ (∀ q ∈ ["NO MATCH"],
            eligible (splitFields '/' "NO MATCH") (splitFields ',' q) = false))) := by
  decide

/-- Claim C6 amended: provided no pattern renders to the literal string
`NO MATCH`, `find_match` returns `NO MATCH` exactly when no pattern is an
exact match and no pattern passes the wildcard-candidate guard; the
sentinel is an ordinary return value. -/
theorem claim_C6 (path : String) (patterns : List String)
    (hnc : ∀ q ∈ patterns, to_string (splitFields ',' q) ≠ "NO MATCH") :
    (find_match path patterns = "NO MATCH" ↔
      ((∀ q ∈ patterns, splitFields ',' q ≠ splitFields '/' path)
        ∧ (∀ q ∈ patterns,
            eligible (splitFields '/' path) (splitFields ',' q) = false))) := by
  constructor
  · intro h
    have hnoex : ∀ q ∈ patterns, splitFields ',' q ≠ splitFields '/' path := by
      intro q hq hqe
      have he := find_match_exact path patterns ⟨q, hq, hqe⟩
      rw [← hqe] at he
      exact hnc q hq (by rw [← he, h])
    refine ⟨hnoex, ?_⟩
    have hl := findLoop_none_result (splitFields '/' path) patterns [] hnoex
    intro q hq
    by_contra helig
    have hqel : eligible (splitFields '/' path) (splitFields ',' q) = true := by
      rcases Bool.eq_false_or_eq_true
        (eligible (splitFields '/' path) (splitFields ',' q)) with ht | hf
      · exact ht
      · exact absurd hf helig
    have hcne : (patterns.map (fun r => splitFields ',' r)).filter
        (fun m => eligible (splitFields '/' path) m) ≠ [] := by
      intro hnil
      rw [List.filter_eq_nil_iff] at hnil
      exact hnil (splitFields ',' q) (List.mem_map.mpr ⟨q, hq, rfl⟩) hqel
    have hsrc : ∀ x ∈ (patterns.map (fun r => splitFields ',' r)).filter
        (fun m => eligible (splitFields '/' path) m), to_string x ≠ "NO MATCH" := by
      intro x hx
      obtain ⟨hxm, _⟩ := List.mem_filter.mp hx
      obtain ⟨r, hr, hre⟩ := List.mem_map.mp hxm
      rw [← hre]
      exact hnc r hr
    have hwx : ∀ x ∈ (patterns.map (fun r => splitFields ',' r)).filter
        (fun m => eligible (splitFields '/' path) m), WILDCARD ∈ x := by
      intro x hx
      exact (eligible_spec _ _ (List.mem_filter.mp hx).2).2.1
    have hfm : find_match path patterns =
        finishMatch none ((patterns.map (fun r => splitFields ',' r)).filter
          (fun m => eligible (splitFields '/' path) m)) := by
      simp only [find_match, hl, List.nil_append]
    exact finishMatch_none_ne _ hcne hsrc hwx (by rw [← hfm]; exact h)
  · intro ⟨hnoex, helig⟩
    have hl := findLoop_none_result (splitFields '/' path) patterns [] hnoex
    have hnil : (patterns.map (fun r => splitFields ',' r)).filter
        (fun m => eligible (splitFields '/' path) m) = [] := by
      rw [List.filter_eq_nil_iff]
      intro x hx
      obtain ⟨r, hr, hre⟩ := List.mem_map.mp hx
      rw [← hre]
      simp [helig r hr]
    simp only [find_match, hl, hnil, finishMatch]
    rfl

/-- Witness for the amended C6: a path with no matching pattern yields
the sentinel. -/
theorem claim_C6_w :
    find_match "a/b/c" ["x,y"] = "NO MATCH" ↔
      ((∀ q ∈ ["x,y"], splitFields ',' q ≠ splitFields '/' "a/b/c")
        ∧ (∀ q ∈ ["x,y"],
            eligible (splitFields '/' "a/b/c") (splitFields ',' q) = false)) :=
  claim_C6 "a/b/c" ["x,y"] (by decide)

/-! ### The driver -/

/-- Claim C8: when both count headers are present and parse, `main`
emits exactly one output line per consumed path line, in input order;
the number of consumed path lines is at most the declared count, and
equals the number of remaining lines when the stream ends early. -/
theorem claim_C8 (lines rest rest3 : List String) (l0 l1 : String) (p n : Nat)
    (h0 : lines = l0 :: rest) (hp : parseNat l0 = some p)
    (h1 : rest.drop p = l1 :: rest3) (hn : parseNat l1 = some n) :
    main lines = some ((rest3.take n).map (fun path => find_match path (rest.take p)))
      ∧ ((rest3.take n).map (fun path => find_match path (rest.take p))).length =
          (rest3.take n).length
      ∧ (rest3.take n).length ≤ n
      ∧ (rest3.length ≤ n → (rest3.take n).length = rest3.length) := by
  refine ⟨?_, List.length_map _ _, ?_, ?_⟩
  · rw [h0]
    simp only [main, hp, h1, hn]
  · rw [List.length_take]
    exact min_le_left _ _
  · intro hle
    rw [List.length_take]
    exact min_eq_right hle

/-- Witness for C8: a declared path count of 2 with only one path line
present yields exactly one output line. -/
theorem claim_C8_w :
    main ["1", "a,b", "2", "a/b"] =
        some ((["a/b"].take 2).map
          (fun path => find_match path (["a,b", "2", "a/b"].take 1)))
      ∧ ((["a/b"].take 2).map
          (fun path => find_match path (["a,b", "2", "a/b"].take 1))).length =
          (["a/b"].take 2).length
      ∧ (["a/b"].take 2).length ≤ 2
      ∧ (["a/b"].length ≤ 2 → (["a/b"].take 2).length = ["a/b"].length) :=
  claim_C8 ["1", "a,b", "2", "a/b"] ["a,b", "2", "a/b"] ["a/b"] "1" "2" 1 2
    rfl (by decide) rfl (by decide)

end PatternMatcher
